import Mathlib

set_option maxRecDepth 10000

/-!
Shallow embedding of `docs/generate_type_index.py`: a utility that scans a
source tree for `struct`/`enum` declarations, rejects duplicate names, and
renders a sorted markdown index.

Files are modelled as a path (segments relative to the repository root) plus
a read outcome: decoded text (already split into lines), a decode failure
(`UnicodeDecodeError`, which the script catches), or any other read failure
(which the script does not catch).  The regular expression
`^\s*(pub(?:\([^)]*\))?\s+)?(struct|enum)\s+([A-Z][A-Za-z0-9_]*)` is embedded
as a deterministic matcher; every backtracking opportunity of the original
pattern is a dead end (each alternative continuation begins with a character
class disjoint from the one just tried), so the deterministic evaluation
computes exactly `re.match`.  Whitespace is modelled by the ASCII whitespace
characters, used consistently for both `str.lstrip` and `\s`.
-/

namespace TypeIndex

/-- ASCII whitespace, the common core of Python's `str.lstrip` set and `\s`. -/
def isPySpace (c : Char) : Bool :=
  c = ' ' || c = '\t' || c = '\n' || c = '\r' || c = Char.ofNat 11 || c = Char.ofNat 12

/-- The character class `[A-Z]`. -/
def isUpperAZ (c : Char) : Bool :=
  'A' ≤ c && c ≤ 'Z'

/-- The character class `[A-Za-z0-9_]`. -/
def isIdentChar (c : Char) : Bool :=
  ('A' ≤ c && c ≤ 'Z') || ('a' ≤ c && c ≤ 'z') || ('0' ≤ c && c ≤ '9') || c = '_'

/-- Strip a literal token from the front of the input, or fail. -/
def stripTok : List Char → List Char → Option (List Char)
  | [], l => some l
  | _ :: _, [] => none
  | t :: ts, c :: cs => if c = t then stripTok ts cs else none

/-- `headIsSpace l` tells whether the input begins with a whitespace character. -/
def headIsSpace : List Char → Bool
  | [] => false
  | c :: _ => isPySpace c

/-- The subpattern `\s+`: consume one or more whitespace characters (greedily). -/
def spacePlus (l : List Char) : Option (List Char) :=
  if headIsSpace l then some (l.dropWhile isPySpace) else none

/-- The subpattern `\([^)]*\)`: a parenthesized scope qualifier.  `[^)]*` is
greedy but cannot consume `)`, so it deterministically stops at the first
closing parenthesis. -/
def pubParen (l : List Char) : Option (List Char) :=
  match l with
  | c :: rest =>
    if c = '(' then
      match rest.dropWhile (fun x => !(x = ')')) with
      | c2 :: r2 => if c2 = ')' then some r2 else none
      | [] => none
    else none
  | [] => none

/-- The optional visibility group `(pub(?:\([^)]*\))?\s+)?` of `PATTERN`:
`some` when the group participates in the match, `none` when it matches
empty.  When a matched scope qualifier is not followed by whitespace the
regex backtracks to the scope-free branch, hence the inner `spacePlus rest`. -/
def matchPubGroup (l : List Char) : Option (List Char) :=
  match stripTok "pub".data l with
  | none => none
  | some rest =>
    match pubParen rest with
    | some r2 =>
      match spacePlus r2 with
      | some r3 => some r3
      | none => spacePlus rest
    | none => spacePlus rest

/-- The alternation `(struct|enum)` (group 2 of `PATTERN`). -/
def matchKindTok (l : List Char) : Option (String × List Char) :=
  match stripTok "struct".data l with
  | some rest => some ("struct", rest)
  | none =>
    match stripTok "enum".data l with
    | some rest => some ("enum", rest)
    | none => none

/-- The tail `\s+([A-Z][A-Za-z0-9_]*)` of `PATTERN`: whitespace then the
captured identifier (greedy, hence maximal). -/
def identAfter (rest : List Char) : Option String :=
  match spacePlus rest with
  | none => none
  | some r2 =>
    match r2 with
    | c :: r3 =>
      if isUpperAZ c then some (String.mk (c :: r3.takeWhile isIdentChar)) else none
    | [] => none

/-- `PATTERN` applied after the leading `\s*` has been consumed. -/
def patternCore (l0 : List Char) : Option (String × String) :=
  match matchKindTok ((matchPubGroup l0).getD l0) with
  | none => none
  | some (kind, rest) =>
    match identAfter rest with
    | some name => some (kind, name)
    | none => none

/-- `PATTERN.match(line)`, returning the captures `(group(2), group(3))`:
the declaration kind and the declared identifier. -/
def patternMatch (line : String) : Option (String × String) :=
  patternCore (line.data.dropWhile isPySpace)

/-- `l` begins with the two characters `a`, `b` (for `str.startswith`). -/
def startsWith2 (l : List Char) (a b : Char) : Bool :=
  match l with
  | x :: y :: _ => x = a && y = b
  | _ => false

/-- One iteration of the scanner's line loop: skip comment-opening lines,
otherwise match `PATTERN` against the (unstripped) line. -/
def scanLine (line : String) : Option (String × String) :=
  let stripped := line.data.dropWhile isPySpace
  if startsWith2 stripped '/' '/' || startsWith2 stripped '/' '*' then none
  else patternMatch line

/-- A detected declaration: `(name, kind, path, idx)` of the Python tuple. -/
structure DeclRecord where
  name : String
  kind : String
  path : List String
  line : Nat
deriving DecidableEq, Repr

/-- Result of `path.read_text()`. -/
inductive ReadOutcome where
  | text (lines : List String)
  | decodeFailure
  | readFailure (msg : String)
deriving DecidableEq, Repr

/-- A file of the scanned tree: path segments relative to `ROOT`, plus the
outcome of reading it.  Decoded content is given as its list of lines. -/
structure SrcFile where
  path : List String
  content : ReadOutcome
deriving DecidableEq, Repr

/-- `IGNORE_DIRS = {".git", "target", "node_modules"}`. -/
def IGNORE_DIRS : List String :=
  [".git", "target", "node_modules"]

/-- `should_skip`: some path segment is an ignored directory name. -/
def should_skip (path : List String) : Bool :=
  path.any (fun part => IGNORE_DIRS.contains part)

/-- Code-point comparison of characters, as in Python string ordering. -/
def charLtNat (a b : Char) : Bool := a.toNat < b.toNat

/-- Lexicographic `≤` on character lists (Python `str` comparison). -/
def lexLeChars : List Char → List Char → Bool
  | [], _ => true
  | _ :: _, [] => false
  | a :: as, b :: bs =>
    if charLtNat a b then true
    else if charLtNat b a then false
    else lexLeChars as bs

/-- Strict lexicographic `<` on character lists. -/
def lexLtChars : List Char → List Char → Bool
  | [], [] => false
  | [], _ :: _ => true
  | _ :: _, [] => false
  | a :: as, b :: bs =>
    if charLtNat a b then true
    else if charLtNat b a then false
    else lexLtChars as bs

/-- Python `str` `≤`. -/
def strLe (a b : String) : Bool := lexLeChars a.data b.data

/-- Python `str` `<`. -/
def strLt (a b : String) : Bool := lexLtChars a.data b.data

/-- Lexicographic `≤` on path segment lists: the order `sorted` uses on
`pathlib` paths (componentwise string comparison). -/
def pathLe : List String → List String → Bool
  | [], _ => true
  | _ :: _, [] => false
  | a :: as, b :: bs =>
    if strLt a b then true
    else if strLt b a then false
    else pathLe as bs

/-- Strict lexicographic `<` on path segment lists. -/
def pathLt : List String → List String → Bool
  | [], [] => false
  | [], _ :: _ => true
  | _ :: _, [] => false
  | a :: as, b :: bs =>
    if strLt a b then true
    else if strLt b a then false
    else pathLt as bs

/-- Visitation order of two files, by path. -/
def fileLe (f g : SrcFile) : Prop := pathLe f.path g.path = true

instance : DecidableRel fileLe := fun f g => by
  unfold fileLe; infer_instance

/-- `rglob("*.rs")`: the file name ends in `.rs`. -/
def isRsPath (path : List String) : Bool :=
  match path.getLast? with
  | some name =>
    match name.data.reverse with
    | 's' :: 'r' :: '.' :: _ => true
    | _ => false
  | none => false

/-- `sorted(ROOT.rglob("*.rs"))`: the deterministic visitation order of the
walker, independent of the filesystem's enumeration order. -/
def walkOrder (tree : List SrcFile) : List SrcFile :=
  List.insertionSort fileLe (tree.filter (fun f => isRsPath f.path))

/-- The scanner's inner loop over `enumerate(text.splitlines(), start=1)`. -/
def scanLines (path : List String) : List String → Nat → List DeclRecord
  | [], _ => []
  | l :: ls, n =>
    match scanLine l with
    | some (kind, name) => ⟨name, kind, path, n⟩ :: scanLines path ls (n + 1)
    | none => scanLines path ls (n + 1)

/-- The walker/scanner loop of `collect_types`, over files already in
visitation order.  A `readFailure` is an uncaught exception: it aborts the
whole collection; a `decodeFailure` is caught and the file is skipped. -/
def scanFiles : List SrcFile → Except String (List DeclRecord)
  | [] => .ok []
  | f :: fs =>
    if should_skip f.path then scanFiles fs
    else
      match f.content with
      | .readFailure e => .error e
      | .decodeFailure => scanFiles fs
      | .text lines =>
        match scanFiles fs with
        | .error e => .error e
        | .ok recs => .ok (scanLines f.path lines 1 ++ recs)

/-- All records carrying a given name, in scan order (the lists stored in the
`seen` dictionary). -/
def occurrencesOf (records : List DeclRecord) (n : String) : List DeclRecord :=
  records.filter (fun r => r.name == n)

/-- Keys of a Python dict built by repeated insertion: first-encounter order. -/
def dedupAux : List String → List String → List String
  | [], _ => []
  | x :: xs, acc => if acc.contains x then dedupAux xs acc else x :: dedupAux xs (x :: acc)

/-- Names in the order they are first encountered (the `seen` dict's keys). -/
def namesInOrder (records : List DeclRecord) : List String :=
  dedupAux (records.map DeclRecord.name) []

/-- The `duplicates` dict's keys: names with two or more occurrences, in
first-encounter order. -/
def dupNames (records : List DeclRecord) : List String :=
  (namesInOrder records).filter (fun n => 2 ≤ (occurrencesOf records n).length)

/-- `'/'.join(segments)`: both `str(rel)` (POSIX) and `rel.as_posix()`. -/
def renderPath (p : List String) : String := String.intercalate "/" p

/-- One diagnostic line `  {name}: {rel}#L{line}`. -/
def diagLine (n : String) (r : DeclRecord) : String :=
  "  " ++ n ++ ": " ++ renderPath r.path ++ "#L" ++ toString r.line

/-- Everything printed to stderr when duplicates are found. -/
def dupDiagnostics (records : List DeclRecord) : List String :=
  "Duplicate type definitions found:" ::
    (dupNames records).flatMap (fun n => (occurrencesOf records n).map (diagLine n))

/-- Visitation order of two records under `types.sort(key=lambda item: item[0])`. -/
def recLe (a b : DeclRecord) : Prop := strLe a.name b.name = true

instance : DecidableRel recLe := fun a b => by
  unfold recLe; infer_instance

/-- `types.sort(key=lambda item: item[0])`: stable sort by name. -/
def sortByName (records : List DeclRecord) : List DeclRecord :=
  List.insertionSort recLe records

/-- Result of `collect_types()`: either the diagnostics of a duplicate-caused
`sys.exit(1)`, or the sorted record list. -/
inductive CollectResult where
  | dupsFound (diag : List String)
  | ok (types : List DeclRecord)
deriving DecidableEq, Repr

/-- `collect_types()`, over a tree given as an (unordered) list of files.
The outer `Except` is an uncaught read exception. -/
def collect_types (tree : List SrcFile) : Except String CollectResult :=
  match scanFiles (walkOrder tree) with
  | .error e => .error e
  | .ok records =>
    if (dupNames records).isEmpty then .ok (.ok (sortByName records))
    else .ok (.dupsFound (dupDiagnostics records))

/-- One row of the rendered table. -/
def tableRow (r : DeclRecord) : String :=
  "| " ++ r.name ++ " | " ++ r.kind ++ " | `" ++ renderPath r.path ++ "#L" ++
    toString r.line ++ "` |"

/-- `render_table(types)`. -/
def render_table (types : List DeclRecord) : String :=
  String.intercalate "\n"
    (["# Type Index",
      "",
      "This file lists every `struct` and `enum` defined in the repository.",
      "",
      "| Type | Kind | Location |",
      "| --- | --- | --- |"]
      ++ types.map tableRow
      ++ ["",
          "Generated automatically to support DRY efforts.",
          "",
          "Run `python docs/generate_type_index.py` to regenerate.",
          ""])

/-- Terminal state of `main()`: report written (exit 0), duplicates reported
on stderr (exit 1), or an uncaught exception (abnormal termination). -/
inductive RunEnd where
  | wrote (doc : String) (summary : String)
  | dupsExit (diag : List String)
  | exception (msg : String)
deriving DecidableEq, Repr

/-- `main()`, as a function of the tree contents. -/
def main_run (tree : List SrcFile) : RunEnd :=
  match collect_types tree with
  | .error e => .exception e
  | .ok (.dupsFound diag) => .dupsExit diag
  | .ok (.ok types) =>
    .wrote (render_table types)
      ("Wrote docs/TYPE_INDEX.md with " ++ toString types.length ++ " entries.")

/-- Process exit status (an uncaught Python exception also exits 1). -/
def RunEnd.exitCode : RunEnd → Nat
  | .wrote _ _ => 0
  | .dupsExit _ => 1
  | .exception _ => 1

/-- Content written to `docs/TYPE_INDEX.md`, when any. -/
def RunEnd.written : RunEnd → Option String
  | .wrote doc _ => some doc
  | _ => none

/-- Lines printed to the diagnostic stream. -/
def RunEnd.stderrLines : RunEnd → List String
  | .dupsExit diag => diag
  | _ => []

/-- Lines printed to stdout. -/
def RunEnd.stdoutLines : RunEnd → List String
  | .wrote _ summary => [summary]
  | _ => []

/-! ### Order facts for the two comparison relations -/

theorem charToNat_inj {c d : Char} (h : c.toNat = d.toNat) : c = d :=
  Char.eq_of_val_eq (UInt32.toNat.inj h)

theorem charLtNat_iff {a b : Char} : charLtNat a b = true ↔ a.toNat < b.toNat := by
  simp [charLtNat]

theorem charLtNat_self (a : Char) : charLtNat a a = false := by
  simp [charLtNat]

theorem lexLtChars_irrefl : ∀ l, lexLtChars l l = false
  | [] => rfl
  | a :: as => by
    simp only [lexLtChars, charLtNat_self, Bool.false_eq_true, if_false]
    exact lexLtChars_irrefl as

theorem lexLtChars_asymm : ∀ {l m}, lexLtChars l m = true → lexLtChars m l = false
  | [], [], h => by simp [lexLtChars] at h
  | [], _ :: _, _ => rfl
  | _ :: _, [], h => by simp [lexLtChars] at h
  | a :: as, b :: bs, h => by
    by_cases hab : charLtNat a b = true
    · have hba : charLtNat b a = false := by
        rw [charLtNat_iff] at hab; simp [charLtNat]; omega
      simp [lexLtChars, hab, hba]
    · by_cases hba : charLtNat b a = true
      · simp [lexLtChars, hab, hba] at h
      · simp only [lexLtChars, hab, hba, Bool.false_eq_true, if_false] at h ⊢
        exact lexLtChars_asymm h

theorem lexLtChars_connex :
    ∀ {l m}, lexLtChars l m = false → lexLtChars m l = false → l = m
  | [], [], _, _ => rfl
  | [], _ :: _, h, _ => by simp [lexLtChars] at h
  | _ :: _, [], _, h => by simp [lexLtChars] at h
  | a :: as, b :: bs, h1, h2 => by
    by_cases hab : charLtNat a b = true
    · simp [lexLtChars, hab] at h1
    · by_cases hba : charLtNat b a = true
      · simp [lexLtChars, hba] at h2
      · have hce : a = b := by
          apply charToNat_inj
          rw [charLtNat_iff] at hab hba
          omega
        simp only [lexLtChars, hab, hba, Bool.false_eq_true, if_false] at h1 h2
        rw [hce, lexLtChars_connex h1 h2]

theorem lexLtChars_trans :
    ∀ {l m k}, lexLtChars l m = true → lexLtChars m k = true → lexLtChars l k = true
  | [], [], _, h1, _ => by simp [lexLtChars] at h1
  | _, _ :: _, [], _, h2 => by simp [lexLtChars] at h2
  | [], _ :: _, _ :: _, _, _ => rfl
  | _ :: _, [], _, h1, _ => by simp [lexLtChars] at h1
  | a :: as, b :: bs, c :: cs, h1, h2 => by
    by_cases hab : charLtNat a b = true
    · by_cases hbc : charLtNat b c = true
      · have : charLtNat a c = true := by
          rw [charLtNat_iff] at hab hbc ⊢; omega
        simp [lexLtChars, this]
      · by_cases hcb : charLtNat c b = true
        · simp [lexLtChars, hbc, hcb] at h2
        · have hbc' : b = c := by
            apply charToNat_inj; rw [charLtNat_iff] at hbc hcb; omega
          subst hbc'
          simp [lexLtChars, hab]
    · by_cases hba : charLtNat b a = true
      · simp [lexLtChars, hab, hba] at h1
      · have hab' : a = b := by
          apply charToNat_inj; rw [charLtNat_iff] at hab hba; omega
        subst hab'
        simp only [lexLtChars, hab, hba, Bool.false_eq_true, if_false] at h1
        by_cases hac : charLtNat a c = true
        · simp [lexLtChars, hac]
        · by_cases hca : charLtNat c a = true
          · simp [lexLtChars, hac, hca] at h2
          · simp only [lexLtChars, hac, hca, Bool.false_eq_true, if_false] at h2 ⊢
            exact lexLtChars_trans h1 h2

theorem lexLeChars_eq_not_lt : ∀ l m, lexLeChars l m = !(lexLtChars m l)
  | [], [] => rfl
  | [], _ :: _ => rfl
  | _ :: _, [] => rfl
  | a :: as, b :: bs => by
    by_cases hab : charLtNat a b = true
    · have hba : charLtNat b a = false := by
        rw [charLtNat_iff] at hab; simp [charLtNat]; omega
      simp [lexLeChars, lexLtChars, hab, hba]
    · by_cases hba : charLtNat b a = true
      · simp [lexLeChars, lexLtChars, hab, hba]
      · simp only [lexLeChars, lexLtChars, hab, hba, Bool.false_eq_true, if_false]
        exact lexLeChars_eq_not_lt as bs

theorem strLt_irrefl (a : String) : strLt a a = false :=
  lexLtChars_irrefl a.data

theorem strLt_asymm {a b : String} (h : strLt a b = true) : strLt b a = false :=
  lexLtChars_asymm h

theorem strLt_connex {a b : String} (h1 : strLt a b = false) (h2 : strLt b a = false) :
    a = b :=
  String.ext (lexLtChars_connex h1 h2)

theorem strLt_trans {a b c : String} (h1 : strLt a b = true) (h2 : strLt b c = true) :
    strLt a c = true :=
  lexLtChars_trans h1 h2

theorem strLe_total (a b : String) : strLe a b = true ∨ strLe b a = true := by
  unfold strLe
  rw [lexLeChars_eq_not_lt, lexLeChars_eq_not_lt]
  by_cases h : lexLtChars b.data a.data = true
  · right; rw [lexLtChars_asymm h]; rfl
  · left; rw [Bool.not_eq_true] at h; rw [h]; rfl

theorem strLe_trans {a b c : String} (h1 : strLe a b = true) (h2 : strLe b c = true) :
    strLe a c = true := by
  unfold strLe at h1 h2 ⊢
  rw [lexLeChars_eq_not_lt] at h1 h2 ⊢
  rw [Bool.not_eq_eq_eq_not, Bool.not_true] at h1 h2 ⊢
  by_cases hca : lexLtChars c.data a.data = true
  · exfalso
    by_cases hab : lexLtChars a.data b.data = true
    · rw [lexLtChars_trans hca hab] at h2; exact Bool.noConfusion h2
    · rw [Bool.not_eq_true] at hab
      have : a.data = b.data := lexLtChars_connex hab h1
      rw [← this] at h2
      rw [hca] at h2
      exact absurd h2 (by simp)
  · rw [Bool.not_eq_true] at hca; exact hca

theorem pathLe_total : ∀ p q : List String, pathLe p q = true ∨ pathLe q p = true
  | [], _ => Or.inl rfl
  | _ :: _, [] => Or.inr rfl
  | a :: as, b :: bs => by
    by_cases hab : strLt a b = true
    · left; simp [pathLe, hab]
    · by_cases hba : strLt b a = true
      · right; simp [pathLe, hba]
      · have hab' : a = b := strLt_connex (by simpa using hab) (by simpa using hba)
        subst hab'
        have hirr := strLt_irrefl a
        rcases pathLe_total as bs with h | h
        · left; simp [pathLe, hirr, h]
        · right; simp [pathLe, hirr, h]

theorem pathLe_trans :
    ∀ {p q s : List String}, pathLe p q = true → pathLe q s = true → pathLe p s = true
  | [], _, _, _, _ => rfl
  | _ :: _, [], _, h1, _ => by simp [pathLe] at h1
  | _ :: _, _ :: _, [], _, h2 => by simp [pathLe] at h2
  | a :: as, b :: bs, c :: cs, h1, h2 => by
    by_cases hab : strLt a b = true
    · by_cases hbc : strLt b c = true
      · simp [pathLe, strLt_trans hab hbc]
      · by_cases hcb : strLt c b = true
        · simp [pathLe, hbc, hcb] at h2
        · have : b = c := strLt_connex (by simpa using hbc) (by simpa using hcb)
          subst this
          simp [pathLe, hab]
    · by_cases hba : strLt b a = true
      · simp [pathLe, hab, hba] at h1
      · have : a = b := strLt_connex (by simpa using hab) (by simpa using hba)
        subst this
        simp only [pathLe, hab, hba, Bool.false_eq_true, if_false] at h1
        by_cases hac : strLt a c = true
        · simp [pathLe, hac]
        · by_cases hca : strLt c a = true
          · simp [pathLe, hac, hca] at h2
          · simp only [pathLe, hac, hca, Bool.false_eq_true, if_false] at h2 ⊢
            exact pathLe_trans h1 h2

theorem pathLe_antisymm :
    ∀ {p q : List String}, pathLe p q = true → pathLe q p = true → p = q
  | [], [], _, _ => rfl
  | [], _ :: _, _, h2 => by simp [pathLe] at h2
  | _ :: _, [], h1, _ => by simp [pathLe] at h1
  | a :: as, b :: bs, h1, h2 => by
    by_cases hab : strLt a b = true
    · simp [pathLe, strLt_asymm hab, hab] at h2
    · by_cases hba : strLt b a = true
      · simp [pathLe, hab, hba] at h1
      · have : a = b := strLt_connex (by simpa using hab) (by simpa using hba)
        subst this
        simp only [pathLe, hab, hba, Bool.false_eq_true, if_false] at h1 h2
        rw [pathLe_antisymm h1 h2]

instance : IsTotal SrcFile fileLe :=
  ⟨fun f g => pathLe_total f.path g.path⟩

instance : IsTrans SrcFile fileLe :=
  ⟨fun _ _ _ => pathLe_trans⟩

instance : IsTotal DeclRecord recLe :=
  ⟨fun a b => strLe_total a.name b.name⟩

instance : IsTrans DeclRecord recLe :=
  ⟨fun _ _ _ => strLe_trans⟩

/-! ### Character-list helpers and inversion lemmas for the matcher -/

/-- Every character of `l` is whitespace. -/
def AllWs (l : List Char) : Prop := ∀ c ∈ l, isPySpace c = true

theorem dataStruct : "struct".data = ['s', 't', 'r', 'u', 'c', 't'] := rfl

theorem dataEnum : "enum".data = ['e', 'n', 'u', 'm'] := rfl

theorem dataPub : "pub".data = ['p', 'u', 'b'] := rfl

theorem dropWhile_append_all {α : Type} {p : α → Bool} :
    ∀ {xs : List α} (ys : List α), (∀ a ∈ xs, p a = true) →
      (xs ++ ys).dropWhile p = ys.dropWhile p
  | [], _, _ => rfl
  | x :: xs, ys, h => by
    have hx : p x = true := h x (List.mem_cons_self x xs)
    simp only [List.cons_append, List.dropWhile_cons, hx, if_pos]
    exact dropWhile_append_all ys (fun a ha => h a (List.mem_cons_of_mem x ha))

theorem dropWhile_cons_false {α : Type} {p : α → Bool} {a : α} {l : List α}
    (h : p a = false) : (a :: l).dropWhile p = a :: l := by
  simp [List.dropWhile_cons, h]

theorem dropWhile_ws_eq {w r : List Char} (hw : AllWs w) (hr : headIsSpace r = false) :
    (w ++ r).dropWhile isPySpace = r := by
  rw [dropWhile_append_all r hw]
  cases r with
  | nil => rfl
  | cons c cs => exact dropWhile_cons_false (by simpa [headIsSpace] using hr)

theorem stripTok_some_iff : ∀ {t l r : List Char}, stripTok t l = some r ↔ l = t ++ r
  | [], l, r => by simp [stripTok]
  | _ :: _, [], r => by simp [stripTok]
  | t :: ts, c :: cs, r => by
    simp only [stripTok]
    by_cases hc : c = t
    · subst hc
      rw [if_pos rfl]
      simp [stripTok_some_iff]
    · rw [if_neg hc]
      simp [hc]

theorem spacePlus_some {l r : List Char} (h : spacePlus l = some r) :
    ∃ w, l = w ++ r ∧ w ≠ [] ∧ AllWs w := by
  unfold spacePlus at h
  by_cases hh : headIsSpace l = true
  · rw [if_pos hh] at h
    injection h with h'
    refine ⟨l.takeWhile isPySpace, ?_, ?_, ?_⟩
    · rw [← h']; exact (List.takeWhile_append_dropWhile isPySpace l).symm
    · cases l with
      | nil => simp [headIsSpace] at hh
      | cons c cs =>
        have hc : isPySpace c = true := by simpa [headIsSpace] using hh
        simp [List.takeWhile_cons, hc]
    · exact fun c hc => List.mem_takeWhile_imp hc
  · rw [if_neg hh] at h
    exact absurd h (by simp)

theorem spacePlus_append {w r : List Char} (hw : AllWs w) (hne : w ≠ [])
    (hr : headIsSpace r = false) : spacePlus (w ++ r) = some r := by
  cases w with
  | nil => exact absurd rfl hne
  | cons c cs =>
    have hc : isPySpace c = true := hw c (List.mem_cons_self c cs)
    unfold spacePlus
    rw [if_pos (by simpa [headIsSpace] using hc)]
    rw [dropWhile_ws_eq hw hr]

theorem spacePlus_none_of_head {l : List Char} (h : headIsSpace l = false) :
    spacePlus l = none := by
  unfold spacePlus
  rw [if_neg (by simp [h])]

theorem pubParen_some_iff {l r : List Char} :
    pubParen l = some r ↔
      ∃ inner, l = '(' :: (inner ++ ')' :: r) ∧ ∀ c ∈ inner, c ≠ ')' := by
  constructor
  · intro h
    cases l with
    | nil => simp [pubParen] at h
    | cons c rest =>
      simp only [pubParen] at h
      by_cases hc : c = '('
      · subst hc
        rw [if_pos rfl] at h
        cases hdw : rest.dropWhile (fun x => !(x = ')')) with
        | nil =>
          simp only [hdw] at h
          exact absurd h (by simp)
        | cons c2 r2 =>
          simp only [hdw] at h
          by_cases h2 : c2 = ')'
          · subst h2
            rw [if_pos rfl] at h
            injection h with h'
            subst h'
            refine ⟨rest.takeWhile (fun x => !(x = ')')), ?_, ?_⟩
            · rw [← hdw]
              rw [List.takeWhile_append_dropWhile]
            · intro x hx
              have := List.mem_takeWhile_imp hx
              simpa using this
          · rw [if_neg h2] at h
            exact absurd h (by simp)
      · rw [if_neg hc] at h
        exact absurd h (by simp)
  · rintro ⟨inner, rfl, hin⟩
    have hdw : (inner ++ ')' :: r).dropWhile (fun x => !(x = ')')) = ')' :: r := by
      rw [dropWhile_append_all (')' :: r) (fun a ha => by simp [hin a ha])]
      exact dropWhile_cons_false (by simp)
    simp [pubParen, hdw]

theorem matchKindTok_some_iff {l : List Char} {k : String} {rest : List Char} :
    matchKindTok l = some (k, rest) ↔
      (k = "struct" ∧ l = "struct".data ++ rest) ∨
        (k = "enum" ∧ l = "enum".data ++ rest) := by
  unfold matchKindTok
  cases hs : stripTok "struct".data l with
  | some r' =>
    rw [stripTok_some_iff] at hs
    simp only [Option.some.injEq, Prod.mk.injEq]
    constructor
    · rintro ⟨rfl, rfl⟩
      exact Or.inl ⟨rfl, hs⟩
    · rintro (⟨rfl, he⟩ | ⟨rfl, he⟩)
      · exact ⟨rfl, List.append_cancel_left (hs.symm.trans he)⟩
      · rw [he] at hs
        simp [dataStruct, dataEnum] at hs
  | none =>
    cases he : stripTok "enum".data l with
    | some r' =>
      rw [stripTok_some_iff] at he
      simp only [Option.some.injEq, Prod.mk.injEq]
      constructor
      · rintro ⟨rfl, rfl⟩
        exact Or.inr ⟨rfl, he⟩
      · rintro (⟨rfl, hx⟩ | ⟨rfl, hx⟩)
        · rw [← stripTok_some_iff] at hx
          exact absurd (hs.symm.trans hx) (by simp)
        · exact ⟨rfl, List.append_cancel_left (he.symm.trans hx)⟩
    | none =>
      constructor
      · intro h
        exact absurd h (by simp)
      · rintro (⟨rfl, hx⟩ | ⟨rfl, hx⟩)
        · rw [← stripTok_some_iff] at hx
          exact absurd (hs.symm.trans hx) (by simp)
        · rw [← stripTok_some_iff] at hx
          exact absurd (he.symm.trans hx) (by simp)

/-! ### The spec's description of the pattern (claim C1) -/

/-- Modelled from the spec: "optionally followed by a parenthesized scope
qualifier" — the scope qualifier, or nothing. -/
def ScopePart (s : List Char) : Prop :=
  s = [] ∨ ∃ inner, s = '(' :: (inner ++ [')']) ∧ ∀ c ∈ inner, c ≠ ')'

/-- Modelled from the spec: "an optional visibility qualifier (a keyword
optionally followed by a parenthesized scope qualifier), followed by
whitespace" — the qualifier with its trailing whitespace, or nothing. -/
def VisQualifier (v : List Char) : Prop :=
  v = [] ∨
    ∃ scope w1,
      v = "pub".data ++ (scope ++ w1) ∧ ScopePart scope ∧ w1 ≠ [] ∧ AllWs w1

/-- Modelled from the spec, §4.2 step 2, with the leading whitespace already
removed: an optional visibility qualifier, the literal keyword `struct` or
`enum`, whitespace, then an identifier beginning with an uppercase ASCII
letter and continuing with letters, digits, or underscores. -/
def SpecCore (l0 : List Char) : Prop :=
  ∃ v k w2 c cs rest,
    l0 = v ++ k ++ w2 ++ c :: cs ++ rest ∧
    VisQualifier v ∧
    (k = "struct".data ∨ k = "enum".data) ∧
    w2 ≠ [] ∧ AllWs w2 ∧
    isUpperAZ c = true ∧ (∀ x ∈ cs, isIdentChar x = true)

/-- Modelled from the spec, §4.2 step 2: the line matches the declaration
pattern after optional leading whitespace. -/
def SpecLineMatch (line : String) : Prop :=
  ∃ ws l0, line.data = ws ++ l0 ∧ AllWs ws ∧ SpecCore l0

theorem upper_not_space {c : Char} (h : isUpperAZ c = true) : isPySpace c = false := by
  by_contra hc
  rw [Bool.not_eq_false] at hc
  simp only [isPySpace, Bool.or_eq_true, decide_eq_true_eq] at hc
  rcases hc with ((((hc | hc) | hc) | hc) | hc) | hc <;> subst hc <;>
    exact absurd h (by decide)

theorem kind_head_not_space {k : List Char} (x : List Char)
    (hk : k = "struct".data ∨ k = "enum".data) : headIsSpace (k ++ x) = false := by
  rcases hk with rfl | rfl <;> rfl

theorem stripTok_self_append (t x : List Char) : stripTok t (t ++ x) = some x :=
  stripTok_some_iff.mpr rfl

theorem pubParen_none_of_head {c : Char} {xs : List Char} (hc : ¬c = '(') :
    pubParen (c :: xs) = none := by
  simp [pubParen, hc]

theorem startsWith2_head {x a b : Char} {l : List Char} (hx : ¬x = a) :
    startsWith2 (x :: l) a b = false := by
  cases l <;> simp [startsWith2, hx]

theorem matchPubGroup_some {l r : List Char} (h : matchPubGroup l = some r) :
    ∃ v, l = v ++ r ∧ v ≠ [] ∧ VisQualifier v := by
  unfold matchPubGroup at h
  cases hp : stripTok "pub".data l with
  | none => rw [hp] at h; exact absurd h (by simp)
  | some rest0 =>
    simp only [hp] at h
    rw [stripTok_some_iff] at hp
    cases hpp : pubParen rest0 with
    | some r2 =>
      simp only [hpp] at h
      rw [pubParen_some_iff] at hpp
      obtain ⟨inner, hre, hin⟩ := hpp
      cases hsp : spacePlus r2 with
      | some r3 =>
        simp only [hsp] at h
        injection h with h'
        subst h'
        obtain ⟨w1, hw1e, hw1ne, hw1⟩ := spacePlus_some hsp
        refine ⟨"pub".data ++ (('(' :: (inner ++ [')'])) ++ w1), ?_, by simp, ?_⟩
        · rw [hp, hre, hw1e]; simp
        · exact Or.inr ⟨'(' :: (inner ++ [')']), w1, rfl, Or.inr ⟨inner, rfl, hin⟩, hw1ne, hw1⟩
      | none =>
        simp only [hsp] at h
        rw [hre] at h
        rw [spacePlus_none_of_head (by rfl)] at h
        exact absurd h (by simp)
    | none =>
      simp only [hpp] at h
      obtain ⟨w1, hw1e, hw1ne, hw1⟩ := spacePlus_some h
      refine ⟨"pub".data ++ ([] ++ w1), ?_, by simp, ?_⟩
      · rw [hp, hw1e]; simp
      · exact Or.inr ⟨[], w1, rfl, Or.inl rfl, hw1ne, hw1⟩

theorem matchPubGroup_kind {k : List Char} (rest : List Char)
    (hk : k = "struct".data ∨ k = "enum".data) : matchPubGroup (k ++ rest) = none := by
  rcases hk with rfl | rfl <;> rfl

theorem matchPubGroup_vis {scope w1 : List Char} (hs : ScopePart scope) (hw1ne : w1 ≠ [])
    (hw1 : AllWs w1) (rest : List Char) (hr : headIsSpace rest = false) :
    matchPubGroup ("pub".data ++ (scope ++ w1) ++ rest) = some rest := by
  have hassoc : "pub".data ++ (scope ++ w1) ++ rest = "pub".data ++ (scope ++ (w1 ++ rest)) := by
    simp
  rw [hassoc]
  have h1 : stripTok "pub".data ("pub".data ++ (scope ++ (w1 ++ rest))) =
      some (scope ++ (w1 ++ rest)) := stripTok_self_append _ _
  have h3 : spacePlus (w1 ++ rest) = some rest := spacePlus_append hw1 hw1ne hr
  rcases hs with rfl | ⟨inner, rfl, hin⟩
  · cases w1 with
    | nil => exact absurd rfl hw1ne
    | cons c cs =>
      have hc : isPySpace c = true := hw1 c (List.mem_cons_self c cs)
      have hcne : ¬c = '(' := by rintro rfl; exact absurd hc (by decide)
      have h2 : pubParen ([] ++ ((c :: cs) ++ rest)) = none := by
        rw [List.nil_append, List.cons_append]
        exact pubParen_none_of_head hcne
      simp only [matchPubGroup, h1, h2]
      simpa using h3
  · have h2 : pubParen (('(' :: (inner ++ [')'])) ++ (w1 ++ rest)) = some (w1 ++ rest) := by
      apply pubParen_some_iff.mpr
      exact ⟨inner, by simp, hin⟩
    simp only [matchPubGroup, h1, h2, h3]

theorem identAfter_some {rest : List Char} {name : String} (h : identAfter rest = some name) :
    ∃ w2 c tail, rest = w2 ++ c :: tail ∧ w2 ≠ [] ∧ AllWs w2 ∧ isUpperAZ c = true := by
  unfold identAfter at h
  cases hsp : spacePlus rest with
  | none => rw [hsp] at h; exact absurd h (by simp)
  | some r2 =>
    simp only [hsp] at h
    obtain ⟨w2, hw2e, hw2ne, hw2⟩ := spacePlus_some hsp
    cases r2 with
    | nil => exact absurd h (by simp)
    | cons c r3 =>
      by_cases hu : isUpperAZ c = true
      · exact ⟨w2, c, r3, hw2e, hw2ne, hw2, hu⟩
      · simp [hu] at h

theorem identAfter_append {w2 : List Char} {c : Char} (tail : List Char) (hw2 : AllWs w2)
    (hne : w2 ≠ []) (hu : isUpperAZ c = true) :
    ∃ name, identAfter (w2 ++ c :: tail) = some name := by
  have h1 : spacePlus (w2 ++ c :: tail) = some (c :: tail) :=
    spacePlus_append hw2 hne (by simp [headIsSpace, upper_not_space hu])
  refine ⟨String.mk (c :: tail.takeWhile isIdentChar), ?_⟩
  simp only [identAfter, h1, if_pos hu]

theorem patternCore_isSome_iff {l0 : List Char} :
    (patternCore l0).isSome = true ↔ SpecCore l0 := by
  constructor
  · intro h
    unfold patternCore at h
    cases hpg : matchPubGroup l0 with
    | none =>
      simp only [hpg, Option.getD_none] at h
      cases hk : matchKindTok l0 with
      | none => simp only [hk] at h; exact absurd h (by simp)
      | some kr =>
        obtain ⟨kind, rest⟩ := kr
        simp only [hk] at h
        cases hi : identAfter rest with
        | none => simp only [hi] at h; exact absurd h (by simp)
        | some name =>
          obtain ⟨w2, c, tail, hre, hw2ne, hw2, hu⟩ := identAfter_some hi
          rcases matchKindTok_some_iff.mp hk with ⟨rfl, hl0⟩ | ⟨rfl, hl0⟩
          · exact ⟨[], "struct".data, w2, c, [], tail, by rw [hl0, hre]; simp, Or.inl rfl,
              Or.inl rfl, hw2ne, hw2, hu, by simp⟩
          · exact ⟨[], "enum".data, w2, c, [], tail, by rw [hl0, hre]; simp, Or.inl rfl,
              Or.inr rfl, hw2ne, hw2, hu, by simp⟩
    | some pg =>
      simp only [hpg, Option.getD_some] at h
      obtain ⟨v, hl0e, hvne, hv⟩ := matchPubGroup_some hpg
      cases hk : matchKindTok pg with
      | none => simp only [hk] at h; exact absurd h (by simp)
      | some kr =>
        obtain ⟨kind, rest⟩ := kr
        simp only [hk] at h
        cases hi : identAfter rest with
        | none => simp only [hi] at h; exact absurd h (by simp)
        | some name =>
          obtain ⟨w2, c, tail, hre, hw2ne, hw2, hu⟩ := identAfter_some hi
          rcases matchKindTok_some_iff.mp hk with ⟨rfl, hpge⟩ | ⟨rfl, hpge⟩
          · exact ⟨v, "struct".data, w2, c, [], tail,
              by rw [hl0e, hpge, hre]; simp, hv, Or.inl rfl, hw2ne, hw2, hu, by simp⟩
          · exact ⟨v, "enum".data, w2, c, [], tail,
              by rw [hl0e, hpge, hre]; simp, hv, Or.inr rfl, hw2ne, hw2, hu, by simp⟩
  · rintro ⟨v, k, w2, c, cs, rest, hl0, hv, hk, hw2ne, hw2, hu, hcs⟩
    subst hl0
    obtain ⟨name, hia⟩ := identAfter_append (cs ++ rest) hw2 hw2ne hu
    have hra : v ++ k ++ w2 ++ c :: cs ++ rest = v ++ (k ++ (w2 ++ c :: (cs ++ rest))) := by
      simp
    rw [hra]
    rcases hv with rfl | ⟨scope, w1, rfl, hsc, hw1ne, hw1⟩
    · rw [List.nil_append]
      have hpg : matchPubGroup (k ++ (w2 ++ c :: (cs ++ rest))) = none :=
        matchPubGroup_kind _ hk
      rcases hk with rfl | rfl
      · have hkt : matchKindTok ("struct".data ++ (w2 ++ c :: (cs ++ rest))) =
            some ("struct", w2 ++ c :: (cs ++ rest)) :=
          matchKindTok_some_iff.mpr (Or.inl ⟨rfl, rfl⟩)
        simp only [patternCore, hpg, Option.getD_none, hkt, hia, Option.isSome_some]
      · have hkt : matchKindTok ("enum".data ++ (w2 ++ c :: (cs ++ rest))) =
            some ("enum", w2 ++ c :: (cs ++ rest)) :=
          matchKindTok_some_iff.mpr (Or.inr ⟨rfl, rfl⟩)
        simp only [patternCore, hpg, Option.getD_none, hkt, hia, Option.isSome_some]
    · have hpg : matchPubGroup ("pub".data ++ (scope ++ w1) ++ (k ++ (w2 ++ c :: (cs ++ rest)))) =
          some (k ++ (w2 ++ c :: (cs ++ rest))) :=
        matchPubGroup_vis hsc hw1ne hw1 _ (kind_head_not_space _ hk)
      rcases hk with rfl | rfl
      · have hkt : matchKindTok ("struct".data ++ (w2 ++ c :: (cs ++ rest))) =
            some ("struct", w2 ++ c :: (cs ++ rest)) :=
          matchKindTok_some_iff.mpr (Or.inl ⟨rfl, rfl⟩)
        simp only [patternCore, hpg, Option.getD_some, hkt, hia, Option.isSome_some]
      · have hkt : matchKindTok ("enum".data ++ (w2 ++ c :: (cs ++ rest))) =
            some ("enum", w2 ++ c :: (cs ++ rest)) :=
          matchKindTok_some_iff.mpr (Or.inr ⟨rfl, rfl⟩)
        simp only [patternCore, hpg, Option.getD_some, hkt, hia, Option.isSome_some]

theorem core_head_not_space {l0 : List Char} (h : SpecCore l0) : headIsSpace l0 = false := by
  obtain ⟨v, k, w2, c, cs, rest, hl0, hv, hk, _, _, _, _⟩ := h
  subst hl0
  rcases hv with rfl | ⟨scope, w1, rfl, _, _, _⟩
  · rw [show ([] : List Char) ++ k ++ w2 ++ c :: cs ++ rest =
      k ++ (w2 ++ c :: (cs ++ rest)) from by simp]
    exact kind_head_not_space _ hk
  · rfl

theorem core_not_comment {l0 : List Char} (h : SpecCore l0) :
    startsWith2 l0 '/' '/' = false ∧ startsWith2 l0 '/' '*' = false := by
  obtain ⟨v, k, w2, c, cs, rest, hl0, hv, hk, _, _, _, _⟩ := h
  subst hl0
  rcases hv with rfl | ⟨scope, w1, rfl, _, _, _⟩
  · rcases hk with rfl | rfl
    · simp only [dataStruct, List.nil_append, List.cons_append]
      exact ⟨startsWith2_head (by decide), startsWith2_head (by decide)⟩
    · simp only [dataEnum, List.nil_append, List.cons_append]
      exact ⟨startsWith2_head (by decide), startsWith2_head (by decide)⟩
  · simp only [dataPub, List.cons_append]
    exact ⟨startsWith2_head (by decide), startsWith2_head (by decide)⟩

theorem specLineMatch_iff {line : String} :
    SpecLineMatch line ↔ SpecCore (line.data.dropWhile isPySpace) := by
  constructor
  · rintro ⟨ws, l0, he, hws, hcore⟩
    rw [he, dropWhile_ws_eq hws (core_head_not_space hcore)]
    exact hcore
  · intro hcore
    exact ⟨line.data.takeWhile isPySpace, line.data.dropWhile isPySpace,
      (List.takeWhile_append_dropWhile isPySpace line.data).symm,
      fun c hc => List.mem_takeWhile_imp hc, hcore⟩

theorem scanLine_isSome_iff {line : String} :
    (scanLine line).isSome = true ↔ SpecLineMatch line := by
  unfold scanLine
  by_cases hc : (startsWith2 (line.data.dropWhile isPySpace) '/' '/' ||
      startsWith2 (line.data.dropWhile isPySpace) '/' '*') = true
  · rw [if_pos hc]
    simp only [Option.isSome_none, Bool.false_eq_true, false_iff]
    intro hs
    obtain ⟨h1, h2⟩ := core_not_comment (specLineMatch_iff.mp hs)
    rw [h1, h2] at hc
    exact absurd hc (by simp)
  · rw [if_neg hc]
    unfold patternMatch
    rw [patternCore_isSome_iff]
    exact specLineMatch_iff.symm

/-! ### Structure of the scanned record list -/

/-- Scan order of two records: strictly earlier file, or same file and
strictly earlier line. -/
def recOrder (a b : DeclRecord) : Prop :=
  (pathLe a.path b.path = true ∧ a.path ≠ b.path) ∨ (a.path = b.path ∧ a.line < b.line)

theorem scanLines_mem_path :
    ∀ {p : List String} {ls : List String} {n : Nat} {r : DeclRecord},
      r ∈ scanLines p ls n → r.path = p ∧ n ≤ r.line
  | _, [], _, _, h => by simp [scanLines] at h
  | p, l :: ls, n, r, h => by
    unfold scanLines at h
    cases hs : scanLine l with
    | some kn =>
      obtain ⟨kind, name⟩ := kn
      simp only [hs] at h
      rcases List.mem_cons.mp h with rfl | h'
      · exact ⟨rfl, le_refl _⟩
      · obtain ⟨hp, hn⟩ := scanLines_mem_path h'
        exact ⟨hp, by omega⟩
    | none =>
      simp only [hs] at h
      obtain ⟨hp, hn⟩ := scanLines_mem_path h
      exact ⟨hp, by omega⟩

theorem scanLines_pairwise (p : List String) :
    ∀ (ls : List String) (n : Nat),
      (scanLines p ls n).Pairwise (fun a b => a.line < b.line)
  | [], _ => List.Pairwise.nil
  | l :: ls, n => by
    unfold scanLines
    cases hs : scanLine l with
    | some kn =>
      obtain ⟨kind, name⟩ := kn
      refine List.Pairwise.cons ?_ (scanLines_pairwise p ls (n + 1))
      intro b hb
      have := (scanLines_mem_path hb).2
      simp only []
      omega
    | none => exact scanLines_pairwise p ls (n + 1)

theorem scanFiles_ok_mem :
    ∀ {l : List SrcFile} {records : List DeclRecord} {r : DeclRecord},
      scanFiles l = .ok records → r ∈ records →
      ∃ f ∈ l, r.path = f.path ∧ should_skip f.path = false
  | [], records, r, h, hr => by
    simp only [scanFiles, Except.ok.injEq] at h
    subst h
    simp at hr
  | f :: fs, records, r, h, hr => by
    unfold scanFiles at h
    by_cases hs : should_skip f.path = true
    · rw [if_pos hs] at h
      obtain ⟨g, hg, hgp, hgs⟩ := scanFiles_ok_mem h hr
      exact ⟨g, List.mem_cons_of_mem _ hg, hgp, hgs⟩
    · rw [if_neg hs] at h
      cases hc : f.content with
      | readFailure e =>
        simp only [hc] at h
        exact Except.noConfusion h
      | decodeFailure =>
        simp only [hc] at h
        obtain ⟨g, hg, hgp, hgs⟩ := scanFiles_ok_mem h hr
        exact ⟨g, List.mem_cons_of_mem _ hg, hgp, hgs⟩
      | text lines =>
        simp only [hc] at h
        cases hsf : scanFiles fs with
        | error e =>
          simp only [hsf] at h
          exact Except.noConfusion h
        | ok recs =>
          simp only [hsf, Except.ok.injEq] at h
          subst h
          rcases List.mem_append.mp hr with h1 | h2
          · exact ⟨f, List.mem_cons_self f fs, (scanLines_mem_path h1).1,
              Bool.not_eq_true _ ▸ hs⟩
          · obtain ⟨g, hg, hgp, hgs⟩ := scanFiles_ok_mem hsf h2
            exact ⟨g, List.mem_cons_of_mem _ hg, hgp, hgs⟩

theorem scanFiles_pairwise :
    ∀ {l : List SrcFile} {records : List DeclRecord},
      l.Pairwise (fun f g => pathLe f.path g.path = true ∧ f.path ≠ g.path) →
      scanFiles l = .ok records → records.Pairwise recOrder
  | [], records, _, h => by
    simp only [scanFiles, Except.ok.injEq] at h
    subst h
    exact List.Pairwise.nil
  | f :: fs, records, hpair, h => by
    rw [List.pairwise_cons] at hpair
    obtain ⟨hf, hfs⟩ := hpair
    unfold scanFiles at h
    by_cases hs : should_skip f.path = true
    · rw [if_pos hs] at h
      exact scanFiles_pairwise hfs h
    · rw [if_neg hs] at h
      cases hc : f.content with
      | readFailure e =>
        simp only [hc] at h
        exact Except.noConfusion h
      | decodeFailure =>
        simp only [hc] at h
        exact scanFiles_pairwise hfs h
      | text lines =>
        simp only [hc] at h
        cases hsf : scanFiles fs with
        | error e =>
          simp only [hsf] at h
          exact Except.noConfusion h
        | ok recs =>
          simp only [hsf, Except.ok.injEq] at h
          subst h
          rw [List.pairwise_append]
          refine ⟨?_, scanFiles_pairwise hfs hsf, ?_⟩
          · refine (scanLines_pairwise f.path lines 1).imp_of_mem ?_
            intro a b ha hb hlt
            exact Or.inr ⟨(scanLines_mem_path ha).1.trans (scanLines_mem_path hb).1.symm, hlt⟩
          · intro a ha b hb
            obtain ⟨g, hg, hgp, _⟩ := scanFiles_ok_mem hsf hb
            have hfg := hf g hg
            left
            rw [(scanLines_mem_path ha).1, hgp]
            exact hfg

/-! ### The `seen` dictionary: first-encounter order and duplicates -/

theorem mem_dedupAux :
    ∀ {l acc : List String} {x : String}, x ∈ dedupAux l acc ↔ x ∈ l ∧ x ∉ acc
  | [], acc, x => by simp [dedupAux]
  | y :: ys, acc, x => by
    unfold dedupAux
    by_cases hc : acc.contains y = true
    · rw [if_pos hc]
      rw [mem_dedupAux]
      have hy : y ∈ acc := List.elem_iff.mp hc
      constructor
      · rintro ⟨h1, h2⟩
        exact ⟨List.mem_cons_of_mem _ h1, h2⟩
      · rintro ⟨h1, h2⟩
        rcases List.mem_cons.mp h1 with rfl | h1'
        · exact absurd hy h2
        · exact ⟨h1', h2⟩
    · rw [if_neg hc]
      have hy : y ∉ acc := fun hm => hc (List.elem_iff.mpr hm)
      constructor
      · intro h
        rcases List.mem_cons.mp h with rfl | h'
        · exact ⟨List.mem_cons_self _ _, hy⟩
        · obtain ⟨h1, h2⟩ := mem_dedupAux.mp h'
          exact ⟨List.mem_cons_of_mem _ h1, fun hm => h2 (List.mem_cons_of_mem _ hm)⟩
      · rintro ⟨h1, h2⟩
        rcases List.mem_cons.mp h1 with rfl | h1'
        · exact List.mem_cons_self _ _
        · by_cases hxy : x = y
          · subst hxy
            exact List.mem_cons_self _ _
          · refine List.mem_cons_of_mem _ (mem_dedupAux.mpr ⟨h1', ?_⟩)
            intro hm
            rcases List.mem_cons.mp hm with h | h
            · exact hxy h
            · exact h2 h

theorem dedupAux_pairwise_firstIdx :
    ∀ (l acc : List String),
      (dedupAux l acc).Pairwise (fun a b => l.indexOf a < l.indexOf b)
  | [], _ => List.Pairwise.nil
  | x :: xs, acc => by
    unfold dedupAux
    by_cases hc : acc.contains x = true
    · rw [if_pos hc]
      refine (dedupAux_pairwise_firstIdx xs acc).imp_of_mem ?_
      intro a b ha hb hr
      have hax : a ≠ x := fun he =>
        (mem_dedupAux.mp ha).2 (he ▸ List.elem_iff.mp hc)
      have hbx : b ≠ x := fun he =>
        (mem_dedupAux.mp hb).2 (he ▸ List.elem_iff.mp hc)
      rw [List.indexOf_cons_ne _ hax.symm, List.indexOf_cons_ne _ hbx.symm]
      omega
    · rw [if_neg hc]
      refine List.Pairwise.cons ?_ ?_
      · intro b hb
        have hbx : b ≠ x := fun he =>
          (mem_dedupAux.mp hb).2 (he ▸ List.mem_cons_self _ _)
        rw [List.indexOf_cons_self, List.indexOf_cons_ne _ hbx.symm]
        omega
      · refine (dedupAux_pairwise_firstIdx xs (x :: acc)).imp_of_mem ?_
        intro a b ha hb hr
        have hax : a ≠ x := fun he =>
          (mem_dedupAux.mp ha).2 (he ▸ List.mem_cons_self _ _)
        have hbx : b ≠ x := fun he =>
          (mem_dedupAux.mp hb).2 (he ▸ List.mem_cons_self _ _)
        rw [List.indexOf_cons_ne _ hax.symm, List.indexOf_cons_ne _ hbx.symm]
        omega

theorem mem_namesInOrder {records : List DeclRecord} {n : String} :
    n ∈ namesInOrder records ↔ n ∈ records.map DeclRecord.name := by
  unfold namesInOrder
  rw [mem_dedupAux]
  simp

theorem dupNames_ne_nil_iff {records : List DeclRecord} :
    dupNames records ≠ [] ↔ ∃ n, 2 ≤ (occurrencesOf records n).length := by
  constructor
  · intro h
    obtain ⟨n, hn⟩ := List.exists_mem_of_ne_nil _ h
    rw [dupNames, List.mem_filter] at hn
    exact ⟨n, by simpa using hn.2⟩
  · rintro ⟨n, hn⟩
    have hocc : occurrencesOf records n ≠ [] := by
      intro he
      rw [he] at hn
      simp at hn
    obtain ⟨r, hr⟩ := List.exists_mem_of_ne_nil _ hocc
    rw [occurrencesOf, List.mem_filter] at hr
    have hname : r.name = n := by simpa using hr.2
    have hmem : n ∈ namesInOrder records :=
      mem_namesInOrder.mpr (List.mem_map.mpr ⟨r, hr.1, hname⟩)
    apply List.ne_nil_of_mem (show n ∈ dupNames records from ?_)
    rw [dupNames, List.mem_filter]
    exact ⟨hmem, by simpa using hn⟩

theorem dupNames_eq_nil {records : List DeclRecord}
    (h : ∀ n, (occurrencesOf records n).length ≤ 1) : dupNames records = [] := by
  by_contra hne
  obtain ⟨n, hn⟩ := dupNames_ne_nil_iff.mp hne
  have := h n
  omega

/-! ### Walker order facts -/

theorem walkOrder_sorted (tree : List SrcFile) : (walkOrder tree).Pairwise fileLe :=
  List.sorted_insertionSort fileLe _

theorem walkOrder_perm (tree : List SrcFile) :
    (walkOrder tree).Perm (tree.filter (fun f => isRsPath f.path)) :=
  List.perm_insertionSort fileLe _

theorem walkOrder_nodup_paths {tree : List SrcFile}
    (hn : (tree.map SrcFile.path).Nodup) :
    ((walkOrder tree).map SrcFile.path).Nodup := by
  have h2 : ((tree.filter (fun f => isRsPath f.path)).map SrcFile.path).Nodup :=
    List.Nodup.sublist (List.Sublist.map SrcFile.path (List.filter_sublist tree)) hn
  exact (((walkOrder_perm tree).map SrcFile.path).symm).nodup h2

theorem walkOrder_pairwise_strict {tree : List SrcFile}
    (hn : (tree.map SrcFile.path).Nodup) :
    (walkOrder tree).Pairwise (fun f g => pathLe f.path g.path = true ∧ f.path ≠ g.path) := by
  have h1 : (walkOrder tree).Pairwise fileLe := walkOrder_sorted tree
  have h2 : (walkOrder tree).Pairwise (fun f g => f.path ≠ g.path) :=
    List.pairwise_map.mp (walkOrder_nodup_paths hn)
  exact h1.and h2

/-! ### Claim theorems -/

/-- C1: the Declaration Scanner emits a record for a line exactly when the
line, after optional leading whitespace, matches the spec's pattern — an
optional visibility qualifier (optionally with a parenthesized scope)
followed by whitespace, then `struct` or `enum`, then whitespace, then an
identifier starting with an uppercase ASCII letter and continuing with
letters, digits, or underscores; in particular `struct foo` (lowercase
identifier) emits nothing. -/
theorem c1_scanner_emits_iff_pattern :
    (∀ line : String, (scanLine line).isSome = true ↔ SpecLineMatch line) ∧
      scanLine "struct foo" = none :=
  ⟨fun _ => scanLine_isSome_iff, by decide⟩

/-- C4: a line whose leading-whitespace-trimmed form starts with `//` or `/*`
never yields a record, even if a declaration appears later in the line; and
`struct Bar // trailing comment` yields exactly one record, named `Bar`. -/
theorem c4_comment_suppression :
    (∀ line : String,
        (startsWith2 (line.data.dropWhile isPySpace) '/' '/' = true ∨
          startsWith2 (line.data.dropWhile isPySpace) '/' '*' = true) →
        scanLine line = none) ∧
      scanLine "// struct Foo" = none ∧
      (∀ path : List String,
        scanLines path ["struct Bar // trailing comment"] 1 =
          [⟨"Bar", "struct", path, 1⟩]) := by
  refine ⟨?_, by decide, fun path => rfl⟩
  intro line h
  unfold scanLine
  rcases h with h | h <;> rw [if_pos (by simp [h])]

/-- C4 witness: a line with a declaration after a block-comment opener is
suppressed. -/
theorem c4_witness :
    scanLine "  /* struct Hidden */ struct Visible" = none :=
  c4_comment_suppression.1 _ (Or.inr (by decide))

/-- C5: a record surviving the scan never has an ignored directory name
(`.git`, `target`, `node_modules`) as any segment of its path: files under
such directories are excluded from the walk, so nothing they declare can
reach the diagnostics or the report. -/
theorem c5_ignore_dirs_excluded {tree : List SrcFile} {records : List DeclRecord}
    {r : DeclRecord} {seg : String} (h : scanFiles (walkOrder tree) = .ok records)
    (hr : r ∈ records) (hseg : seg ∈ IGNORE_DIRS) : seg ∉ r.path := by
  intro hmem
  obtain ⟨f, _, hp, hskip⟩ := scanFiles_ok_mem h hr
  rw [hp] at hmem
  have hskip2 : should_skip f.path = true := by
    rw [should_skip, List.any_eq_true]
    exact ⟨seg, hmem, List.elem_iff.mpr hseg⟩
  rw [hskip2] at hskip
  exact Bool.noConfusion hskip

/-- Tree used by the C5 witness: one normal file, one under `target/`. -/
def treeC5 : List SrcFile :=
  [⟨["src", "a.rs"], .text ["struct Alpha {}"]⟩,
   ⟨["target", "b.rs"], .text ["struct Beta {}"]⟩]

/-- C5 witness: in a concrete tree with a declaration under `target/`, the
surviving record is the one from `src/` and carries no ignored segment. -/
theorem c5_witness :
    "target" ∉ (⟨"Alpha", "struct", ["src", "a.rs"], 1⟩ : DeclRecord).path :=
  @c5_ignore_dirs_excluded treeC5 [⟨"Alpha", "struct", ["src", "a.rs"], 1⟩]
    ⟨"Alpha", "struct", ["src", "a.rs"], 1⟩ "target" (by rfl) (by decide) (by decide)

theorem collect_types_dup {tree : List SrcFile} {records : List DeclRecord}
    (h : scanFiles (walkOrder tree) = .ok records) (hd : dupNames records ≠ []) :
    collect_types tree = .ok (.dupsFound (dupDiagnostics records)) := by
  have hfalse : (dupNames records).isEmpty = false := by
    rw [Bool.eq_false_iff]
    exact fun hc => hd (List.isEmpty_iff.mp hc)
  unfold collect_types
  simp only [h, hfalse, Bool.false_eq_true, if_false]

theorem collect_types_nodup {tree : List SrcFile} {records : List DeclRecord}
    (h : scanFiles (walkOrder tree) = .ok records) (hd : dupNames records = []) :
    collect_types tree = .ok (.ok (sortByName records)) := by
  unfold collect_types
  simp only [h, hd, List.isEmpty_nil, if_true]

/-- C2: a duplicated declaration name is fatal — the run exits non-zero with
no document written, and the diagnostics contain one line for every
occurrence of every duplicated name; with no duplicates nothing is printed
to the diagnostic stream and the scanned records are passed on unchanged up
to sorting. -/
theorem c2_duplicates_fatal {tree : List SrcFile} {records : List DeclRecord}
    (h : scanFiles (walkOrder tree) = .ok records) :
    ((∃ n, 2 ≤ (occurrencesOf records n).length) →
        (main_run tree).exitCode = 1 ∧ (main_run tree).written = none ∧
          ∀ n, 2 ≤ (occurrencesOf records n).length →
            ∀ r ∈ occurrencesOf records n, diagLine n r ∈ (main_run tree).stderrLines) ∧
      ((∀ n, (occurrencesOf records n).length ≤ 1) →
        (main_run tree).stderrLines = [] ∧
          collect_types tree = .ok (.ok (sortByName records)) ∧
          (sortByName records).Perm records) := by
  constructor
  · intro hdup
    have hd : dupNames records ≠ [] := dupNames_ne_nil_iff.mpr hdup
    have hm : main_run tree = .dupsExit (dupDiagnostics records) := by
      unfold main_run
      rw [collect_types_dup h hd]
    rw [hm]
    refine ⟨rfl, rfl, ?_⟩
    intro n hn r hr
    show diagLine n r ∈ dupDiagnostics records
    unfold dupDiagnostics
    apply List.mem_cons_of_mem
    apply List.mem_flatMap.mpr
    refine ⟨n, ?_, List.mem_map.mpr ⟨r, hr, rfl⟩⟩
    rw [dupNames, List.mem_filter]
    constructor
    · have hocc : occurrencesOf records n ≠ [] := by
        intro he
        rw [he] at hn
        simp at hn
      obtain ⟨r2, hr2⟩ := List.exists_mem_of_ne_nil _ hocc
      rw [occurrencesOf, List.mem_filter] at hr2
      exact mem_namesInOrder.mpr (List.mem_map.mpr ⟨r2, hr2.1, by simpa using hr2.2⟩)
    · simpa using hn
  · intro hnone
    have hd : dupNames records = [] := dupNames_eq_nil hnone
    have hct := collect_types_nodup h hd
    have hm : main_run tree = .wrote (render_table (sortByName records))
        ("Wrote docs/TYPE_INDEX.md with " ++ toString (sortByName records).length ++
          " entries.") := by
      unfold main_run
      rw [hct]
    rw [hm]
    exact ⟨rfl, hct, List.perm_insertionSort recLe records⟩

/-- Tree used by the C2 witness: `Gamma` declared in two files. -/
def treeC2 : List SrcFile :=
  [⟨["b.rs"], .text ["struct Gamma {}"]⟩,
   ⟨["a.rs"], .text ["", "struct Gamma;"]⟩]

/-- C2 witness: a concrete duplicated tree exits 1 and writes nothing. -/
theorem c2_witness :
    (main_run treeC2).exitCode = 1 ∧ (main_run treeC2).written = none := by
  have h := @c2_duplicates_fatal treeC2
      [⟨"Gamma", "struct", ["a.rs"], 2⟩, ⟨"Gamma", "struct", ["b.rs"], 1⟩] rfl
  obtain ⟨h1, h2, _⟩ := h.1 ⟨"Gamma", by decide⟩
  exact ⟨h1, h2⟩

/-- C3: on a successful run the rendered list is a permutation of the scanned
records (each record appears exactly once), is sorted by name under the
code-point (case-sensitive ASCII) order, and the document is the fixed
byte-deterministic skeleton — title, explanation, table header, one
`| Type | Kind | path#Lline |` row per record, trailer, regeneration
instruction, trailing newline — joined with `\n`. -/
theorem c3_render_table {tree : List SrcFile} {types : List DeclRecord}
    (h : collect_types tree = .ok (.ok types)) :
    ∃ records, scanFiles (walkOrder tree) = .ok records ∧
      types.Perm records ∧
      List.Sorted recLe types ∧
      render_table types =
        String.intercalate "\n"
          (["# Type Index", "",
            "This file lists every `struct` and `enum` defined in the repository.", "",
            "| Type | Kind | Location |", "| --- | --- | --- |"]
            ++ types.map (fun r =>
              "| " ++ r.name ++ " | " ++ r.kind ++ " | `" ++ renderPath r.path ++ "#L" ++
                toString r.line ++ "` |")
            ++ ["", "Generated automatically to support DRY efforts.", "",
                "Run `python docs/generate_type_index.py` to regenerate.", ""]) := by
  unfold collect_types at h
  cases hsf : scanFiles (walkOrder tree) with
  | error e =>
    simp only [hsf] at h
    exact Except.noConfusion h
  | ok records =>
    simp only [hsf] at h
    by_cases hd : (dupNames records).isEmpty = true
    · rw [if_pos hd] at h
      injection h with h2
      injection h2 with h3
      subst h3
      exact ⟨records, rfl, List.perm_insertionSort recLe records,
        List.sorted_insertionSort recLe records, rfl⟩
    · rw [if_neg hd] at h
      injection h with h2
      exact CollectResult.noConfusion h2

/-- Tree used by the C3 witness: the spec's two-file scenario. -/
def treeC3 : List SrcFile :=
  [⟨["b.rs"], .text ["enum Beta { One, Two }"]⟩,
   ⟨["a.rs"], .text ["", "", "pub struct Alpha { x: i32 }"]⟩]

/-- C3 witness: the concrete two-row table is sorted by name. -/
theorem c3_witness :
    List.Sorted recLe
      [⟨"Alpha", "struct", ["a.rs"], 3⟩, (⟨"Beta", "enum", ["b.rs"], 1⟩ : DeclRecord)] := by
  obtain ⟨records, _, _, hsorted, _⟩ := @c3_render_table treeC3
      [⟨"Alpha", "struct", ["a.rs"], 3⟩, ⟨"Beta", "enum", ["b.rs"], 1⟩] rfl
  exact hsorted

/-- C6: on a duplicate-detecting run the diagnostic stream is the
deterministic list of `name: path#Lline` lines — one per occurrence, grouped
under names in first-encounter order (strictly increasing index of first
occurrence), with each name's occurrences in file-then-line scan order. -/
theorem c6_diag_deterministic {tree : List SrcFile} {records : List DeclRecord}
    (h : scanFiles (walkOrder tree) = .ok records) (hdup : dupNames records ≠ [])
    (hn : (tree.map SrcFile.path).Nodup) :
    (main_run tree).stderrLines =
        "Duplicate type definitions found:" ::
          (dupNames records).flatMap
            (fun n => (occurrencesOf records n).map (diagLine n)) ∧
      (∀ n, (occurrencesOf records n).Pairwise recOrder) ∧
      (dupNames records).Pairwise
        (fun a b =>
          (records.map DeclRecord.name).indexOf a <
            (records.map DeclRecord.name).indexOf b) := by
  refine ⟨?_, ?_, ?_⟩
  · have hm : main_run tree = .dupsExit (dupDiagnostics records) := by
      unfold main_run
      rw [collect_types_dup h hdup]
    rw [hm]
    rfl
  · intro n
    exact (scanFiles_pairwise (walkOrder_pairwise_strict hn) h).filter _
  · exact (dedupAux_pairwise_firstIdx _ _).filter _

/-- C6 witness: the concrete duplicated tree prints exactly the expected
diagnostic lines, in order. -/
theorem c6_witness :
    (main_run treeC2).stderrLines =
      ["Duplicate type definitions found:", "  Gamma: a.rs#L2", "  Gamma: b.rs#L1"] := by
  have h := @c6_diag_deterministic treeC2
      [⟨"Gamma", "struct", ["a.rs"], 2⟩, ⟨"Gamma", "struct", ["b.rs"], 1⟩]
      rfl (by decide) (by decide)
  rw [h.1]
  rfl

theorem scanFiles_cons_eq (f : SrcFile) (l : List SrcFile) :
    scanFiles (f :: l) =
      if should_skip f.path = true then scanFiles l
      else
        match f.content with
        | .readFailure e => .error e
        | .decodeFailure => scanFiles l
        | .text lines =>
          match scanFiles l with
          | .error e => .error e
          | .ok recs => .ok (scanLines f.path lines 1 ++ recs) := rfl

theorem scanFiles_cons_decode {f : SrcFile} (hf : f.content = .decodeFailure)
    (l : List SrcFile) : scanFiles (f :: l) = scanFiles l := by
  rw [scanFiles_cons_eq]
  by_cases hs : should_skip f.path = true
  · rw [if_pos hs]
  · rw [if_neg hs, hf]

theorem scanFiles_cons_congr {b : SrcFile} {l1 l2 : List SrcFile}
    (h : scanFiles l1 = scanFiles l2) : scanFiles (b :: l1) = scanFiles (b :: l2) := by
  rw [scanFiles_cons_eq, scanFiles_cons_eq]
  by_cases hs : should_skip b.path = true
  · rw [if_pos hs, if_pos hs]
    exact h
  · rw [if_neg hs, if_neg hs]
    cases b.content with
    | readFailure e => rfl
    | decodeFailure => exact h
    | text lines => rw [h]

theorem scanFiles_orderedInsert_decode {f : SrcFile} (hf : f.content = .decodeFailure) :
    ∀ l : List SrcFile, scanFiles (List.orderedInsert fileLe f l) = scanFiles l
  | [] => scanFiles_cons_decode hf []
  | b :: bs => by
    unfold List.orderedInsert
    by_cases hle : fileLe f b
    · rw [if_pos hle]
      exact scanFiles_cons_decode hf (b :: bs)
    · rw [if_neg hle]
      exact scanFiles_cons_congr (scanFiles_orderedInsert_decode hf bs)

/-- C7: a file whose text cannot be decoded is skipped silently — it yields
no records on its own, and adding it to a tree changes nothing about the
run: same outcome, same report, same diagnostics, scan of the remaining
files unchanged. -/
theorem c7_decode_failure_skipped (f : SrcFile) (tree : List SrcFile)
    (hf : f.content = .decodeFailure) :
    scanFiles [f] = .ok [] ∧ main_run (f :: tree) = main_run tree := by
  constructor
  · rw [scanFiles_cons_decode hf]
    rfl
  · have hw : scanFiles (walkOrder (f :: tree)) = scanFiles (walkOrder tree) := by
      unfold walkOrder
      rw [List.filter_cons]
      cases hrs : isRsPath f.path with
      | false => simp only [hrs, Bool.false_eq_true, if_false]
      | true =>
        simp only [hrs, if_true, List.insertionSort]
        exact scanFiles_orderedInsert_decode hf _
    unfold main_run collect_types
    rw [hw]

/-- File and tree used by the C7 witness. -/
def fileC7 : SrcFile := ⟨["bad.rs"], .decodeFailure⟩

/-- Companion tree for the C7 witness. -/
def treeC7 : List SrcFile := [⟨["ok.rs"], .text ["struct Solo {}"]⟩]

/-- C7 witness: a concrete undecodable file contributes nothing. -/
theorem c7_witness :
    scanFiles [fileC7] = .ok [] ∧ main_run (fileC7 :: treeC7) = main_run treeC7 :=
  c7_decode_failure_skipped fileC7 treeC7 rfl

theorem sorted_nodup_eq {l1 l2 : List SrcFile} (hp : l1.Perm l2)
    (hs1 : l1.Pairwise fileLe) (hs2 : l2.Pairwise fileLe)
    (hn : (l1.map SrcFile.path).Nodup) : l1 = l2 := by
  have hn2 : (l2.map SrcFile.path).Nodup := (hp.map SrcFile.path).nodup hn
  have h1 : l1.Pairwise (fun f g => fileLe f g ∧ f.path ≠ g.path) :=
    hs1.and (List.pairwise_map.mp hn)
  have h2 : l2.Pairwise (fun f g => fileLe f g ∧ f.path ≠ g.path) :=
    hs2.and (List.pairwise_map.mp hn2)
  haveI : IsAntisymm SrcFile (fun f g => fileLe f g ∧ f.path ≠ g.path) :=
    ⟨fun a b hab hba => absurd (pathLe_antisymm hab.1 hba.1) hab.2⟩
  exact List.eq_of_perm_of_sorted hp h1 h2

/-- C8: the pipeline is a pure function of the tree's contents — in
particular, two trees equal up to filesystem enumeration order (and with no
two files at the same path) produce the same outcome: same document, same
summary, same diagnostics. -/
theorem c8_determinism {t1 t2 : List SrcFile} (hp : t1.Perm t2)
    (hn : (t1.map SrcFile.path).Nodup) : main_run t1 = main_run t2 := by
  have hw : walkOrder t1 = walkOrder t2 := by
    apply sorted_nodup_eq
    · exact (walkOrder_perm t1).trans ((hp.filter _).trans (walkOrder_perm t2).symm)
    · exact walkOrder_sorted t1
    · exact walkOrder_sorted t2
    · exact walkOrder_nodup_paths hn
  unfold main_run collect_types
  rw [hw]

/-- The C3 witness tree with its files enumerated in the other order. -/
def treeC8 : List SrcFile :=
  [⟨["a.rs"], .text ["", "", "pub struct Alpha { x: i32 }"]⟩,
   ⟨["b.rs"], .text ["enum Beta { One, Two }"]⟩]

/-- C8 witness: the two enumeration orders of the same two files produce the
same run outcome. -/
theorem c8_witness : main_run treeC3 = main_run treeC8 :=
  c8_determinism (List.Perm.swap _ _ _) (by decide)

/-- C9: a scan with zero surviving records still succeeds — the full document
skeleton is written, with no data rows, the summary reports 0 entries, and
the exit status is 0. -/
theorem c9_empty_scan_ok {tree : List SrcFile}
    (h : scanFiles (walkOrder tree) = .ok []) :
    main_run tree =
        .wrote
          ("# Type Index\n\nThis file lists every `struct` and `enum` defined in the repository.\n\n| Type | Kind | Location |\n| --- | --- | --- |\n\nGenerated automatically to support DRY efforts.\n\nRun `python docs/generate_type_index.py` to regenerate.\n")
          "Wrote docs/TYPE_INDEX.md with 0 entries." ∧
      (main_run tree).exitCode = 0 := by
  have hm : main_run tree = .wrote (render_table (sortByName []))
      ("Wrote docs/TYPE_INDEX.md with " ++ toString (sortByName []).length ++ " entries.") := by
    unfold main_run
    rw [collect_types_nodup h rfl]
  rw [hm]
  exact ⟨by decide, rfl⟩

/-- Tree used by the C9 witness: one ignored file, one non-`.rs` file. -/
def treeC9 : List SrcFile :=
  [⟨["target", "a.rs"], .text ["struct Hidden {}"]⟩,
   ⟨["notes.txt"], .text ["struct NotRust {}"]⟩]

/-- C9 witness: a tree with no scannable declarations exits 0. -/
theorem c9_witness : (main_run treeC9).exitCode = 0 :=
  (@c9_empty_scan_ok treeC9 rfl).2

theorem scanFiles_error_iff :
    ∀ l : List SrcFile,
      (∃ e, scanFiles l = .error e) ↔
        ∃ f ∈ l, should_skip f.path = false ∧ ∃ e, f.content = .readFailure e
  | [] => by simp [scanFiles]
  | f :: fs => by
    unfold scanFiles
    by_cases hs : should_skip f.path = true
    · rw [if_pos hs]
      rw [scanFiles_error_iff fs]
      constructor
      · rintro ⟨g, hg, hgs, he⟩
        exact ⟨g, List.mem_cons_of_mem _ hg, hgs, he⟩
      · rintro ⟨g, hg, hgs, he⟩
        rcases List.mem_cons.mp hg with rfl | hg2
        · rw [hs] at hgs
          exact absurd hgs (by simp)
        · exact ⟨g, hg2, hgs, he⟩
    · rw [if_neg hs]
      cases hc : f.content with
      | readFailure e =>
        constructor
        · intro _
          exact ⟨f, List.mem_cons_self _ _, by simpa using hs, e, hc⟩
        · intro _
          exact ⟨e, rfl⟩
      | decodeFailure =>
        rw [scanFiles_error_iff fs]
        constructor
        · rintro ⟨g, hg, hgs, he⟩
          exact ⟨g, List.mem_cons_of_mem _ hg, hgs, he⟩
        · rintro ⟨g, hg, hgs, e2, he⟩
          rcases List.mem_cons.mp hg with rfl | hg2
          · rw [hc] at he
            exact ReadOutcome.noConfusion he
          · exact ⟨g, hg2, hgs, e2, he⟩
      | text lines =>
        cases hsf : scanFiles fs with
        | error e2 =>
          constructor
          · intro _
            obtain ⟨g, hg, hgs, he⟩ := (scanFiles_error_iff fs).mp ⟨e2, hsf⟩
            exact ⟨g, List.mem_cons_of_mem _ hg, hgs, he⟩
          · intro _
            exact ⟨e2, rfl⟩
        | ok recs =>
          constructor
          · rintro ⟨e, he⟩
            exact absurd he (by simp)
          · rintro ⟨g, hg, hgs, e2, he⟩
            rcases List.mem_cons.mp hg with rfl | hg2
            · rw [hc] at he
              exact ReadOutcome.noConfusion he
            · obtain ⟨e3, he3⟩ := (scanFiles_error_iff fs).mpr ⟨g, hg2, hgs, e2, he⟩
              rw [he3] at hsf
              exact Except.noConfusion hsf

/-- C10: the read-failure tolerance is exactly decode-width — the run aborts
with an uncaught exception (and no document written) precisely when some
walked, non-ignored `.rs` file fails with a non-decode read error; decode
failures never abort. -/
theorem c10_read_error_aborts (tree : List SrcFile) :
    ((∃ e, main_run tree = .exception e) ↔
        ∃ f ∈ tree, isRsPath f.path = true ∧ should_skip f.path = false ∧
          ∃ e, f.content = .readFailure e) ∧
      ∀ e, main_run tree = .exception e → (main_run tree).written = none := by
  constructor
  · have h1 : (∃ e, main_run tree = .exception e) ↔
        (∃ e, scanFiles (walkOrder tree) = .error e) := by
      cases hsf : scanFiles (walkOrder tree) with
      | error e =>
        have hct : collect_types tree = .error e := by
          unfold collect_types
          rw [hsf]
        unfold main_run
        rw [hct]
        simp
      | ok records =>
        by_cases hd : (dupNames records).isEmpty = true
        · have hct := collect_types_nodup hsf (List.isEmpty_iff.mp hd)
          unfold main_run
          rw [hct]
          simp
        · have hct := collect_types_dup hsf
            (fun hc => hd (by rw [hc]; rfl))
          unfold main_run
          rw [hct]
          simp
    rw [h1, scanFiles_error_iff]
    constructor
    · rintro ⟨g, hg, hgs, he⟩
      unfold walkOrder at hg
      rw [List.mem_insertionSort, List.mem_filter] at hg
      exact ⟨g, hg.1, hg.2, hgs, he⟩
    · rintro ⟨g, hg, hrs, hgs, he⟩
      refine ⟨g, ?_, hgs, he⟩
      unfold walkOrder
      rw [List.mem_insertionSort, List.mem_filter]
      exact ⟨hg, hrs⟩
  · intro e he
    rw [he]
    rfl

/-- Tree used by the C10 witness: one `.rs` file with a non-decode read
error. -/
def treeC10 : List SrcFile := [⟨["a.rs"], .readFailure "PermissionError"⟩]

/-- C10 witness: a concrete permission error aborts the run. -/
theorem c10_witness : ∃ e, main_run treeC10 = .exception e :=
  (c10_read_error_aborts treeC10).1.mpr
    ⟨⟨["a.rs"], .readFailure "PermissionError"⟩, by decide, by decide, by decide,
      "PermissionError", rfl⟩

end TypeIndex
